import Mathlib

/-!
Verification of the solidpy3 local-search library (simulated annealing,
stochastic hill climbing, tabu search) against its specification.

The Python sources are shallowly embedded as executable Lean functions.
Numeric values (scores, energies, temperatures) are modelled as `ℚ`;
states are an arbitrary type `S` with decidable equality (the library
only requires `__eq__` on states).  Sources of nondeterminism in the
Python code — the abstract `_neighbor` method and the random draws inside
`_accept_neighbor` — are modelled as oracles supplied in the engine
configuration, indexed by a call counter, so every theorem quantifies
over all possible behaviours of those oracles.
-/

namespace Solid

/-- A Python exception that can escape `run`.  The only fallible
operation reachable from the embedded code is the attribute access
`neighbor_state.n_index` in `TabuSearch.run` (line 142), which raises
`AttributeError` when the state type has no such attribute. -/
inductive PyErr
| attributeError
deriving DecidableEq, Repr

/-! ## Tabu search (`src/solid/tabu_search.py`) -/

/-- Configuration of a `TabuSearch` object together with the arguments of
`run` and oracles for the abstract/nondeterministic parts:
`nbr t s` is the result of the `t`-th call to `self._neighbor()` when the
current state is `s`; `nIndex s` is the `n_index` attribute of `s`
(`none` when the attribute is missing); `reorder` is the completion
order of the `multiprocessing` workers when `parallel` is true. -/
structure TabuCfg (S : Type) where
  initialState : S
  scoreF : S → ℚ
  tabuSize : ℕ
  nNeighbors : ℕ
  maxScore : Option ℚ
  parallel : Bool
  verbose : Bool
  nbr : ℕ → S → S
  nIndex : S → Option ℚ
  reorder : List (S × ℚ) → List (S × ℚ)

/-- The per-run mutable fields of a `TabuSearch` object.  `calls` is the
number of `_neighbor()` calls made so far (it indexes the `nbr` oracle). -/
structure TabuState (S : Type) where
  currentSteps : ℕ
  tabuList : List S
  currentState : S
  currentScore : ℚ
  bestState : S
  bestScore : ℚ
  bestIteration : ℚ
  calls : ℕ
deriving DecidableEq, Repr

/-- The three termination paths of `TabuSearch.run`. -/
inductive TabuReason
| noSuitableNeighbors
| reachedMaxScore
| reachedMaxSteps
deriving DecidableEq, Repr

/-- The human-readable notice printed on each termination path of
`TabuSearch.run` (lines 129, 145, 148). -/
def tabuNotice : TabuReason → String
| .noSuitableNeighbors => "TERMINATING - NO SUITABLE NEIGHBORS"
| .reachedMaxScore => "TERMINATING - REACHED MAXIMUM SCORE"
| .reachedMaxSteps => "TERMINATING - REACHED MAXIMUM STEPS"

/-- The value `TabuSearch.run` returns to its caller:
`return self.best_state, self.best_score` (lines 131, 147, 150). -/
def tabuPyReturn {S : Type} (st : TabuState S) : S × ℚ :=
  (st.bestState, st.bestScore)

/-- `self.tabu_list.append(x)` on a `deque(maxlen=size)`: appends on the
right, evicting the oldest (leftmost) entry when the deque is full. -/
def tabuPush {S : Type} (size : ℕ) (l : List S) (x : S) : List S :=
  if l.length < size then l ++ [x] else l.tail ++ [x]

/-- The generation-and-filter phase of `TabuSearch._neighborhood`
(lines 86-90): `n_neighbors` calls to `self._neighbor()`, dropping every
result already present in the tabu list.  `t` is the value of the
neighbor-call counter at the start of the round. -/
def genNeighbors {S : Type} [DecidableEq S] (cfg : TabuCfg S)
    (tabu : List S) (cur : S) (t : ℕ) : List S :=
  (List.range cfg.nNeighbors).filterMap fun j =>
    let nb := cfg.nbr (t + j) cur
    if nb ∈ tabu then none else some nb

/-- The scoring phase of `TabuSearch._neighborhood` (lines 92-104): each
surviving neighbor is paired with its score.  In the parallel branch the
pairs are collected in worker-completion order, modelled by `reorder`;
the sequential branch keeps generation order. -/
def neighborhood {S : Type} [DecidableEq S] (cfg : TabuCfg S)
    (tabu : List S) (cur : S) (t : ℕ) : List (S × ℚ) :=
  let scored := (genNeighbors cfg tabu cur t).map fun nb => (nb, cfg.scoreF nb)
  if cfg.parallel then cfg.reorder scored else scored

/-- Stable insertion into a list ascending on the score component:
the new element is placed before the first element of not-smaller score. -/
def insertScored {S : Type} (x : S × ℚ) : List (S × ℚ) → List (S × ℚ)
| [] => [x]
| y :: ys => if x.2 ≤ y.2 then x :: y :: ys else y :: insertScored x ys

/-- `neighborhood.sort(key=lambda x: x[1])` (line 133): Python's sort is
stable and ascending on the key; any stable ascending sort is
extensionally identical, so it is modelled by stable insertion sort. -/
def sortByScore {S : Type} : List (S × ℚ) → List (S × ℚ)
| [] => []
| x :: xs => insertScored x (sortByScore xs)

/-- The selection of `TabuSearch.run` lines 133-135: sort the neighborhood
by score and take the last element; `none` when the neighborhood is empty. -/
def tabuSelect {S : Type} [DecidableEq S] (cfg : TabuCfg S)
    (st : TabuState S) : Option (S × ℚ) :=
  (sortByScore (neighborhood cfg st.tabuList st.currentState st.calls)).getLast?

/-- One iteration of the `for` loop of `TabuSearch.run` (lines 120-147).
Returns the updated object state and, when the loop returns early, the
termination reason.  `AttributeError` from `neighbor_state.n_index`
(line 142) aborts the run. -/
def tabuStep {S : Type} [DecidableEq S] (cfg : TabuCfg S)
    (st : TabuState S) : Except PyErr (TabuState S × Option TabuReason) :=
  let steps := st.currentSteps + 1
  let nbhd := neighborhood cfg st.tabuList st.currentState st.calls
  let calls := st.calls + cfg.nNeighbors
  match (sortByScore nbhd).getLast? with
  | none =>
      .ok ({ st with currentSteps := steps, calls := calls },
           some .noSuitableNeighbors)
  | some (ns, nf) =>
      let tabu := tabuPush cfg.tabuSize st.tabuList ns
      if nf > st.bestScore then
        match cfg.nIndex ns with
        | none => .error .attributeError
        | some ix =>
            let st' : TabuState S :=
              { currentSteps := steps, tabuList := tabu, currentState := ns,
                currentScore := nf, bestState := ns, bestScore := nf,
                bestIteration := ix, calls := calls }
            match cfg.maxScore with
            | some m =>
                if st'.bestScore ≥ m then .ok (st', some .reachedMaxScore)
                else .ok (st', none)
            | none => .ok (st', none)
      else
        let st' : TabuState S :=
          { st with currentSteps := steps, tabuList := tabu,
                    currentState := ns, currentScore := nf, calls := calls }
        match cfg.maxScore with
        | some m =>
            if st'.bestScore ≥ m then .ok (st', some .reachedMaxScore)
            else .ok (st', none)
        | none => .ok (st', none)

/-- The state of a `TabuSearch` object right after `run`'s initialisation
(lines 115-118): session cleared, current and best set from a deep copy of
the initial state. -/
def tabuInit {S : Type} (cfg : TabuCfg S) : TabuState S :=
  { currentSteps := 0, tabuList := [], currentState := cfg.initialState,
    currentScore := cfg.scoreF cfg.initialState,
    bestState := cfg.initialState, bestScore := cfg.scoreF cfg.initialState,
    bestIteration := 0, calls := 0 }

/-- The object state after `k` iterations of `TabuSearch.run`'s loop;
once a termination reason (or exception) is produced it is preserved. -/
def tabuSteps {S : Type} [DecidableEq S] (cfg : TabuCfg S) :
    ℕ → Except PyErr (TabuState S × Option TabuReason)
| 0 => .ok (tabuInit cfg, none)
| k + 1 =>
    match tabuSteps cfg k with
    | .ok (s, none) => tabuStep cfg s
    | r => r

/-- `TabuSearch.run(max_steps, ...)`: run the loop for at most `maxSteps`
iterations; if no early return fires the run ends with the
reached-maximum-steps path (line 148). -/
def tabuRun {S : Type} [DecidableEq S] (cfg : TabuCfg S) (maxSteps : ℕ) :
    Except PyErr (TabuState S × TabuReason) :=
  match tabuSteps cfg maxSteps with
  | .ok (s, some r) => .ok (s, r)
  | .ok (s, none) => .ok (s, .reachedMaxSteps)
  | .error e => .error e

/-- The selection the engine would make at round `k` (the state fed to
round `k` being still running), used to express which states get
inserted into the tabu list and recorded as best. -/
def tabuSelectedAt {S : Type} [DecidableEq S] (cfg : TabuCfg S) (k : ℕ) :
    Option (S × ℚ) :=
  match tabuSteps cfg k with
  | .ok (s, none) => tabuSelect cfg s
  | _ => none

/-- The `reorder` oracle may only permute the scored pairs handed to the
`multiprocessing` workers (each worker appends its own pair exactly once). -/
def ReorderOK {S : Type} (cfg : TabuCfg S) : Prop :=
  ∀ l : List (S × ℚ), (cfg.reorder l).Perm l

/-- Modelled from the spec: the retry loop of *Policy B
(score-then-backtrack)*, which is absent from `src/`.  Starting from the
batch sorted ascending by score and read from the best end, repeatedly
take the best-scoring remaining candidate; a candidate in the tabu list
is accepted only when its score exceeds the best-known score, otherwise
it is discarded and the next-best is tried; `none` when the pool is
exhausted without a selection. -/
def policyBGo {S : Type} [DecidableEq S] (tabu : List S) (bestKnown : ℚ) :
    List (S × ℚ) → Option (S × ℚ)
| [] => none
| (s, f) :: rest =>
    if s ∉ tabu then some (s, f)
    else if f > bestKnown then some (s, f)
    else policyBGo tabu bestKnown rest

/-- Modelled from the spec: *Policy B (score-then-backtrack)* round
selection: score the entire generated batch first, then backtrack from
the best-scoring candidate downwards with the tabu-breaking aspiration
rule (`policyBGo`). -/
def policyBSelect {S : Type} [DecidableEq S] (tabu : List S)
    (bestKnown : ℚ) (batch : List (S × ℚ)) : Option (S × ℚ) :=
  policyBGo tabu bestKnown (sortByScore batch).reverse

/-! ## Simulated annealing (`src/solid/simulated_annealing.py`) -/

/-- The two annealing schedules accepted by the constructor, each
parameterised by its constant (`_get_schedule`, lines 56-62). -/
inductive Schedule
| exponential (c : ℚ)
| linear (c : ℚ)
deriving DecidableEq, Repr

/-- `self.adjust_temp()`: the exponential schedule multiplies the
temperature by the constant, the linear schedule subtracts it
(lines 64-72). -/
def adjustTemp : Schedule → ℚ → ℚ
| .exponential c, T => T * c
| .linear c, T => T - c

/-- The temperature floor `0.000001` of `SimulatedAnnealing.run`
(line 150). -/
def tempFloor : ℚ := 1 / 1000000

/-- Configuration of a `SimulatedAnnealing` object.  `nbr k s` is the
result of the `_neighbor()` call of step `k` when the current state is
`s`; `accept k` is the outcome of `_accept_neighbor` at step `k`, left
completely unconstrained so that every theorem holds for all acceptance
outcomes (the acceptance rule itself is modelled by `saAccept`). -/
structure AnnealCfg (S : Type) where
  initialState : S
  energy : S → ℚ
  startTemp : ℚ
  schedule : Schedule
  maxSteps : ℕ
  minEnergy : Option ℚ
  nbr : ℕ → S → S
  accept : ℕ → Bool

/-- The per-run mutable fields of a `SimulatedAnnealing` object.
`best_state` and `current_energy` are `None` after `_clear` and are only
assigned later (`best_state` only on a strict improvement). -/
structure AnnealState (S : Type) where
  curSteps : ℕ
  currentState : S
  currentTemp : ℚ
  currentEnergy : Option ℚ
  bestState : Option S
  bestEnergy : ℚ
deriving DecidableEq, Repr

/-- The three termination paths of `SimulatedAnnealing.run`. -/
inductive AnnealReason
| reachedMinEnergy
| reachedTempFloor
| reachedMaxSteps
deriving DecidableEq, Repr

/-- The notice printed on each termination path of
`SimulatedAnnealing.run` (lines 146, 151, 153). -/
def annealNotice : AnnealReason → String
| .reachedMinEnergy => "TERMINATING - REACHED MINIMUM ENERGY"
| .reachedTempFloor => "TERMINATING - REACHED TEMPERATURE OF 0"
| .reachedMaxSteps => "TERMINATING - REACHED MAXIMUM STEPS"

/-- The value `SimulatedAnnealing.run` returns:
`return self.best_state, self.best_energy`. -/
def annealPyReturn {S : Type} (st : AnnealState S) : Option S × ℚ :=
  (st.bestState, st.bestEnergy)

/-- The state of a `SimulatedAnnealing` object right after `run`'s
initialisation (lines 125-128): note `best_state` stays `None` and
`current_state` is the initial state itself (no copy is taken). -/
def annealInit {S : Type} (cfg : AnnealCfg S) : AnnealState S :=
  { curSteps := 0, currentState := cfg.initialState,
    currentTemp := cfg.startTemp, currentEnergy := none,
    bestState := none, bestEnergy := cfg.energy cfg.initialState }

/-- The state `current_state` holds after the accept-or-stay assignment
of one annealing step (lines 135-138): the step's generated neighbor
when `_accept_neighbor` returned true, the old current state otherwise. -/
def annealMove {S : Type} (cfg : AnnealCfg S) (st : AnnealState S) : S :=
  if cfg.accept st.curSteps then cfg.nbr st.curSteps st.currentState
  else st.currentState

/-- One iteration of the `for` loop of `SimulatedAnnealing.run`
(lines 129-152): move to the neighbor if accepted, re-evaluate the
current energy, update the best pair on strict improvement (with a deep
copy), then check the minimum-energy exit, apply the schedule and check
the temperature floor. -/
def annealStep {S : Type} (cfg : AnnealCfg S) (st : AnnealState S) :
    AnnealState S × Option AnnealReason :=
  let steps := st.curSteps + 1
  let cur := annealMove cfg st
  let ce := cfg.energy cur
  let bs := if ce < st.bestEnergy then some cur else st.bestState
  let be := if ce < st.bestEnergy then ce else st.bestEnergy
  let st' : AnnealState S :=
    { curSteps := steps, currentState := cur, currentTemp := st.currentTemp,
      currentEnergy := some ce, bestState := bs, bestEnergy := be }
  match cfg.minEnergy with
  | some m =>
      if ce < m then (st', some .reachedMinEnergy)
      else
        let T := adjustTemp cfg.schedule st.currentTemp
        if T < tempFloor then ({ st' with currentTemp := T }, some .reachedTempFloor)
        else ({ st' with currentTemp := T }, none)
  | none =>
      let T := adjustTemp cfg.schedule st.currentTemp
      if T < tempFloor then ({ st' with currentTemp := T }, some .reachedTempFloor)
      else ({ st' with currentTemp := T }, none)

/-- The object state after `k` iterations of `SimulatedAnnealing.run`'s
loop; a produced termination reason is preserved. -/
def annealSteps {S : Type} (cfg : AnnealCfg S) :
    ℕ → AnnealState S × Option AnnealReason
| 0 => (annealInit cfg, none)
| k + 1 =>
    match annealSteps cfg k with
    | (s, none) => annealStep cfg s
    | r => r

/-- `SimulatedAnnealing.run()`: at most `max_steps` loop iterations, then
the reached-maximum-steps path (line 153). -/
def annealRun {S : Type} (cfg : AnnealCfg S) : AnnealState S × AnnealReason :=
  match annealSteps cfg cfg.maxSteps with
  | (s, some r) => (s, r)
  | (s, none) => (s, .reachedMaxSteps)

/-- The sequence of current states a run visits: `current_state` starts
as the initial state and moves to the step's neighbor exactly when that
step accepts. -/
def annealCur {S : Type} (cfg : AnnealCfg S) : ℕ → S
| 0 => cfg.initialState
| k + 1 =>
    let c := annealCur cfg k
    if cfg.accept k then cfg.nbr k c else c

/-- The argument of `math.exp` in `SimulatedAnnealing._accept_neighbor`
(line 113): `-(energy(neighbor) - energy(current)) / current_temp`. -/
def acceptExponent (eNbr eCur T : ℚ) : ℚ := -(eNbr - eCur) / T

/-- `SimulatedAnnealing._accept_neighbor` (lines 105-116), with
`math.exp` abstracted as an oracle `expf` that either returns a value or
raises `OverflowError` (`Except.error`), and the uniform draw `random()`
passed in as `r`: `OverflowError` means accept; otherwise accept
deterministically when `p ≥ 1`, else accept iff `p ≥ r`. -/
def saAccept (expf : ℚ → Except Unit ℚ) (eNbr eCur T r : ℚ) : Bool :=
  match expf (acceptExponent eNbr eCur T) with
  | .error _ => true
  | .ok p => if p ≥ 1 then true else p ≥ r

/-! ## Stochastic hill climbing (`src/solid/stochastic_hill_climb.py`) -/

/-- Configuration of a `StochasticHillClimb` object, with the
`_neighbor` oracle and acceptance-outcome stream as for annealing. -/
structure HillCfg (S : Type) where
  initialState : S
  objective : S → ℚ
  maxObjective : Option ℚ
  maxSteps : ℕ
  nbr : ℕ → S → S
  accept : ℕ → Bool

/-- The per-run mutable fields of a `StochasticHillClimb` object;
`best_state` and `best_objective` are `None` after `_clear`. -/
structure HillState (S : Type) where
  curSteps : ℕ
  currentState : S
  bestState : Option S
  bestObjective : Option ℚ
deriving DecidableEq, Repr

/-- The two termination paths of `StochasticHillClimb.run`. -/
inductive HillReason
| reachedMaxObjective
| reachedMaxSteps
deriving DecidableEq, Repr

/-- The notice printed on each termination path of
`StochasticHillClimb.run` (lines 113, 115). -/
def hillNotice : HillReason → String
| .reachedMaxObjective => "TERMINATING - REACHED MAXIMUM OBJECTIVE"
| .reachedMaxSteps => "TERMINATING - REACHED MAXIMUM STEPS"

/-- The state being moved to in one hill-climbing step: the generated
neighbor when the step accepts, the unchanged current state otherwise. -/
def hillMove {S : Type} (cfg : HillCfg S) (st : HillState S) : S :=
  if cfg.accept st.curSteps then cfg.nbr st.curSteps st.currentState
  else st.currentState

/-- `(self.best_objective or 0)` (lines 108, 112): Python's `or` yields
`0` when `best_objective` is `None` or `0.0` and the value otherwise,
which on numbers coincides with `Option.getD 0`. -/
def bestOr0 (b : Option ℚ) : ℚ := b.getD 0

/-- One iteration of the `for` loop of `StochasticHillClimb.run`
(lines 97-114): possibly move, update the best pair when the current
objective strictly exceeds `(best_objective or 0)`, then check the
maximum-objective exit. -/
def hillStep {S : Type} (cfg : HillCfg S) (st : HillState S) :
    HillState S × Option HillReason :=
  let steps := st.curSteps + 1
  let cur := hillMove cfg st
  let bs :=
    if cfg.objective cur > bestOr0 st.bestObjective then some cur
    else st.bestState
  let bo :=
    if cfg.objective cur > bestOr0 st.bestObjective then some (cfg.objective cur)
    else st.bestObjective
  let st' : HillState S :=
    { curSteps := steps, currentState := cur, bestState := bs, bestObjective := bo }
  match cfg.maxObjective with
  | some m =>
      if bestOr0 bo > m then (st', some .reachedMaxObjective) else (st', none)
  | none => (st', none)

/-- The state of a `StochasticHillClimb` object right after `run`'s
initialisation (lines 95-96). -/
def hillInit {S : Type} (cfg : HillCfg S) : HillState S :=
  { curSteps := 0, currentState := cfg.initialState,
    bestState := none, bestObjective := none }

/-- The object state after `k` iterations of `StochasticHillClimb.run`'s
loop; a produced termination reason is preserved. -/
def hillSteps {S : Type} (cfg : HillCfg S) :
    ℕ → HillState S × Option HillReason
| 0 => (hillInit cfg, none)
| k + 1 =>
    match hillSteps cfg k with
    | (s, none) => hillStep cfg s
    | r => r

/-- `StochasticHillClimb.run()`: at most `max_steps` loop iterations,
then the reached-maximum-steps path (line 115). -/
def hillRun {S : Type} (cfg : HillCfg S) : HillState S × HillReason :=
  match hillSteps cfg cfg.maxSteps with
  | (s, some r) => (s, r)
  | (s, none) => (s, .reachedMaxSteps)

/-- The sequence of current states a hill-climbing run visits. -/
def hillCur {S : Type} (cfg : HillCfg S) : ℕ → S
| 0 => cfg.initialState
| k + 1 =>
    let c := hillCur cfg k
    if cfg.accept k then cfg.nbr k c else c

/-- Closed form of the annealing temperature after `k` fully completed
steps (each completed step applies the schedule exactly once). -/
def tempAt {S : Type} (cfg : AnnealCfg S) (k : ℕ) : ℚ :=
  match cfg.schedule with
  | .exponential c => cfg.startTemp * c ^ k
  | .linear c => cfg.startTemp - k * c

/-- Step `j` of an annealing run records a strict improvement: the run
is still going when step `j` starts and the energy of the state current
after that step's move is strictly below the best energy so far
(the condition of line 141 under which `best_state` is assigned). -/
def annealImproved {S : Type} (cfg : AnnealCfg S) (j : ℕ) : Prop :=
  match annealSteps cfg j with
  | (s, none) => cfg.energy (annealMove cfg s) < s.bestEnergy
  | _ => False

/-- Step `j` of a hill-climbing run records a strict improvement: the
run is still going when step `j` starts and the objective of the state
current after that step's move strictly exceeds `best_objective or 0`
(the condition of line 108 under which `best_state` is assigned). -/
def hillImproved {S : Type} (cfg : HillCfg S) (j : ℕ) : Prop :=
  match hillSteps cfg j with
  | (s, none) => cfg.objective (hillMove cfg s) > bestOr0 s.bestObjective
  | _ => False

/-! ## Concrete instances used to exercise the theorems -/

/-- Tabu search over `ℕ` states: the two neighbor calls of the first
round produce the states `1` and `2`, scored by their value. -/
def c1cfg : TabuCfg ℕ :=
  { initialState := 0, scoreF := fun n => (n : ℚ), tabuSize := 2,
    nNeighbors := 2, maxScore := none, parallel := false, verbose := false,
    nbr := fun t _ => t + 1, nIndex := fun _ => some 0, reorder := id }

/-- Tabu search over states that have no `n_index` attribute
(`nIndex` is `none` everywhere, as for the `str` states of the test
suite), with a first-round neighbor scoring above the initial state. -/
def c2cfg : TabuCfg ℕ :=
  { initialState := 0, scoreF := fun n => (n : ℚ), tabuSize := 1,
    nNeighbors := 1, maxScore := none, parallel := false, verbose := false,
    nbr := fun _ _ => 1, nIndex := fun _ => none, reorder := id }

/-- A tabu configuration whose only generated neighbor is the state `7`,
scored `5`. -/
def c3cfg : TabuCfg ℕ :=
  { initialState := 0, scoreF := fun n => (n : ℚ) - 2, tabuSize := 1,
    nNeighbors := 1, maxScore := none, parallel := false, verbose := false,
    nbr := fun _ _ => 7, nIndex := fun _ => some 0, reorder := id }

/-- A mid-run tabu state whose tabu list holds the high-scoring state `7`
while the best-known score is only `0`: the aspiration rule of Policy B
would fire here. -/
def c3st : TabuState ℕ :=
  { currentSteps := 1, tabuList := [7], currentState := 7,
    currentScore := 5, bestState := 0, bestScore := 0, bestIteration := 0,
    calls := 1 }

/-- An annealing run in which no strict energy improvement ever happens
(constant zero energy) and whose schedule constant `0` reaches the
temperature floor on the first step. -/
def c4cfg : AnnealCfg Unit :=
  { initialState := (), energy := fun _ => 0, startTemp := 1,
    schedule := .exponential 0, maxSteps := 5, minEnergy := none,
    nbr := fun _ _ => (), accept := fun _ => false }

/-- A one-step tabu run whose single selected neighbor `1` scores below
the initial state, so the best pair keeps the initial state. -/
def c4tcfg : TabuCfg ℕ :=
  { initialState := 0, scoreF := fun n => -(n : ℚ), tabuSize := 1,
    nNeighbors := 1, maxScore := none, parallel := false, verbose := false,
    nbr := fun _ _ => 1, nIndex := fun _ => some 0, reorder := id }

/-- The object state after the single round of `c4tcfg`. -/
def c4trec : TabuState ℕ :=
  { currentSteps := 1, tabuList := [1], currentState := 1,
    currentScore := -1, bestState := 0, bestScore := 0, bestIteration := 0,
    calls := 1 }

/-- An annealing run hitting the temperature floor on step one
(schedule constant `0`). -/
def c5cfgA : AnnealCfg Unit :=
  { initialState := (), energy := fun _ => 0, startTemp := 1,
    schedule := .exponential 0, maxSteps := 5, minEnergy := none,
    nbr := fun _ _ => (), accept := fun _ => false }

/-- The same annealing run with schedule constant `1`, which keeps the
temperature at `1` and exhausts the step budget instead. -/
def c5cfgB : AnnealCfg Unit :=
  { initialState := (), energy := fun _ => 0, startTemp := 1,
    schedule := .exponential 1, maxSteps := 5, minEnergy := none,
    nbr := fun _ _ => (), accept := fun _ => false }

/-- A tabu run with `tabu_size = 1` whose neighbor oracle alternates
between the states `0` and `1` (all scores equal), so the state `0` is
inserted at rounds one and three. -/
def c6cfg : TabuCfg ℕ :=
  { initialState := 5, scoreF := fun _ => 0, tabuSize := 1,
    nNeighbors := 1, maxScore := none, parallel := false, verbose := false,
    nbr := fun t _ => t % 2, nIndex := fun _ => some 0, reorder := id }

/-- The object state after three rounds of `c6cfg`. -/
def c6rec : TabuState ℕ :=
  { currentSteps := 3, tabuList := [0], currentState := 0,
    currentScore := 0, bestState := 5, bestScore := 0, bestIteration := 0,
    calls := 3 }

/-- A trivial annealing configuration for exercising best-energy
monotonicity. -/
def c7acfg : AnnealCfg Unit :=
  { initialState := (), energy := fun _ => 0, startTemp := 1,
    schedule := .exponential 1, maxSteps := 5, minEnergy := none,
    nbr := fun _ _ => (), accept := fun k => k % 2 = 0 }

/-- A tabu run whose first round selects the neighbor `1` with score `1`,
improving on the initial score `0`. -/
def c7tcfg : TabuCfg ℕ :=
  { initialState := 0, scoreF := fun n => (n : ℚ), tabuSize := 1,
    nNeighbors := 1, maxScore := none, parallel := false, verbose := false,
    nbr := fun _ _ => 1, nIndex := fun _ => some 0, reorder := id }

/-- The object state after the first round of `c7tcfg`. -/
def c7trec : TabuState ℕ :=
  { currentSteps := 1, tabuList := [1], currentState := 1,
    currentScore := 1, bestState := 1, bestScore := 1, bestIteration := 0,
    calls := 1 }

/-- An annealing configuration with the exponential schedule and
constant `1/2`, accepting on even steps. -/
def c8cfg : AnnealCfg Unit :=
  { initialState := (), energy := fun _ => 0, startTemp := 1,
    schedule := .exponential (1 / 2), maxSteps := 5, minEnergy := none,
    nbr := fun _ _ => (), accept := fun k => k % 2 = 0 }

/-- An exponential oracle that returns the value `1/2` everywhere. -/
def c9expf : ℚ → Except Unit ℚ := fun _ => .ok (1 / 2)

/-- A hill climb all of whose reachable states have objective `-1`. -/
def c10cfg : HillCfg Unit :=
  { initialState := (), objective := fun _ => -1, maxObjective := none,
    maxSteps := 4, nbr := fun _ _ => (), accept := fun _ => true }

/-! ## Helper lemmas about the sorting and selection machinery -/

theorem insertScored_perm {S : Type} (x : S × ℚ) (l : List (S × ℚ)) :
    (insertScored x l).Perm (x :: l) := by
  induction l with
  | nil => simp [insertScored]
  | cons y ys ih =>
      by_cases h : x.2 ≤ y.2
      · simp [insertScored, h]
      · simpa [insertScored, h] using (ih.cons y).trans (List.Perm.swap x y ys)

theorem sortByScore_perm {S : Type} (l : List (S × ℚ)) :
    (sortByScore l).Perm l := by
  induction l with
  | nil => simp [sortByScore]
  | cons x xs ih => exact (insertScored_perm x (sortByScore xs)).trans (ih.cons x)

theorem insertScored_pairwise {S : Type} (x : S × ℚ) {l : List (S × ℚ)}
    (h : l.Pairwise fun a b => a.2 ≤ b.2) :
    (insertScored x l).Pairwise fun a b => a.2 ≤ b.2 := by
  induction l with
  | nil => simp [insertScored]
  | cons y ys ih =>
      rcases List.pairwise_cons.mp h with ⟨hy, hys⟩
      by_cases hxy : x.2 ≤ y.2
      · rw [insertScored, if_pos hxy]
        refine List.pairwise_cons.mpr ⟨?_, h⟩
        intro z hz
        rcases List.mem_cons.mp hz with rfl | hz
        · exact hxy
        · exact le_trans hxy (hy z hz)
      · rw [insertScored, if_neg hxy]
        refine List.pairwise_cons.mpr ⟨?_, ih hys⟩
        intro z hz
        rcases List.mem_cons.mp ((insertScored_perm x ys).mem_iff.mp hz) with rfl | hz2
        · exact le_of_not_le hxy
        · exact hy z hz2

theorem sortByScore_pairwise {S : Type} (l : List (S × ℚ)) :
    (sortByScore l).Pairwise fun a b => a.2 ≤ b.2 := by
  induction l with
  | nil => simp [sortByScore]
  | cons x xs ih => exact insertScored_pairwise x ih

theorem sortByScore_eq_nil_iff {S : Type} {l : List (S × ℚ)} :
    sortByScore l = [] ↔ l = [] := by
  constructor
  · intro h
    have p := sortByScore_perm l
    rw [h] at p
    exact p.symm.eq_nil
  · rintro rfl
    rfl

theorem le_getLast?_of_pairwise {S : Type} :
    ∀ {l : List (S × ℚ)}, (l.Pairwise fun a b => a.2 ≤ b.2) →
      ∀ {x m : S × ℚ}, x ∈ l → l.getLast? = some m → x.2 ≤ m.2 := by
  intro l
  induction l with
  | nil => intro _ x m hx _; simp at hx
  | cons y ys ih =>
      intro h x m hx hm
      rcases List.pairwise_cons.mp h with ⟨hy, hys⟩
      cases ys with
      | nil =>
          simp only [List.getLast?_singleton, Option.some.injEq] at hm
          simp only [List.mem_singleton] at hx
          subst hm; subst hx
          exact le_refl _
      | cons z zs =>
          rw [List.getLast?_cons_cons] at hm
          have hmm : m ∈ z :: zs := List.mem_of_mem_getLast? hm
          rcases List.mem_cons.mp hx with rfl | hx2
          · exact hy m hmm
          · exact ih hys hx2 hm

theorem filterMap_dropTabu {S : Type} [DecidableEq S] (tabu : List S)
    (f : ℕ → S) (l : List ℕ) :
    (l.filterMap fun j =>
        let nb := f j
        if nb ∈ tabu then none else some nb) =
      (l.map f).filter fun nb => decide (nb ∉ tabu) := by
  induction l with
  | nil => rfl
  | cons j l ih =>
      simp only [List.filterMap_cons, List.map_cons, List.filter_cons]
      by_cases h : f j ∈ tabu
      · simp [h, ih]
      · simp [h, ih]

theorem genNeighbors_eq_filter {S : Type} [DecidableEq S] (cfg : TabuCfg S)
    (tabu : List S) (cur : S) (t : ℕ) :
    genNeighbors cfg tabu cur t =
      ((List.range cfg.nNeighbors).map fun j => cfg.nbr (t + j) cur).filter
        fun nb => decide (nb ∉ tabu) := by
  unfold genNeighbors
  exact filterMap_dropTabu tabu (fun j => cfg.nbr (t + j) cur) _

theorem not_tabu_of_mem_genNeighbors {S : Type} [DecidableEq S]
    {cfg : TabuCfg S} {tabu : List S} {cur : S} {t : ℕ} {x : S}
    (hx : x ∈ genNeighbors cfg tabu cur t) : x ∉ tabu := by
  rw [genNeighbors_eq_filter] at hx
  simpa using List.of_mem_filter hx

theorem neighborhood_perm {S : Type} [DecidableEq S] {cfg : TabuCfg S}
    (hre : ReorderOK cfg) (tabu : List S) (cur : S) (t : ℕ) :
    (neighborhood cfg tabu cur t).Perm
      ((genNeighbors cfg tabu cur t).map fun nb => (nb, cfg.scoreF nb)) := by
  unfold neighborhood
  by_cases hp : cfg.parallel = true
  · simpa [hp] using hre _
  · simp [hp]

theorem mem_neighborhood_iff {S : Type} [DecidableEq S] {cfg : TabuCfg S}
    (hre : ReorderOK cfg) (tabu : List S) (cur : S) (t : ℕ) {a : S × ℚ} :
    a ∈ neighborhood cfg tabu cur t ↔
      a ∈ (genNeighbors cfg tabu cur t).map fun nb => (nb, cfg.scoreF nb) :=
  (neighborhood_perm hre tabu cur t).mem_iff

theorem neighborhood_eq_nil_iff {S : Type} [DecidableEq S] {cfg : TabuCfg S}
    (hre : ReorderOK cfg) (tabu : List S) (cur : S) (t : ℕ) :
    neighborhood cfg tabu cur t = [] ↔ genNeighbors cfg tabu cur t = [] := by
  have p := neighborhood_perm hre tabu cur t
  constructor
  · intro h
    rw [h] at p
    simpa using p.symm.eq_nil
  · intro h
    rw [h] at p
    simpa using p.eq_nil

theorem tabuSelect_eq_none_iff {S : Type} [DecidableEq S] {cfg : TabuCfg S}
    (hre : ReorderOK cfg) (st : TabuState S) :
    tabuSelect cfg st = none ↔
      genNeighbors cfg st.tabuList st.currentState st.calls = [] := by
  unfold tabuSelect
  rw [List.getLast?_eq_none_iff, sortByScore_eq_nil_iff]
  exact neighborhood_eq_nil_iff hre _ _ _

theorem tabuSelect_spec {S : Type} [DecidableEq S] {cfg : TabuCfg S}
    (hre : ReorderOK cfg) {st : TabuState S} {ns : S} {nf : ℚ}
    (h : tabuSelect cfg st = some (ns, nf)) :
    ns ∈ genNeighbors cfg st.tabuList st.currentState st.calls ∧
    nf = cfg.scoreF ns ∧
    ∀ x ∈ genNeighbors cfg st.tabuList st.currentState st.calls,
      cfg.scoreF x ≤ nf := by
  unfold tabuSelect at h
  have hmem : (ns, nf) ∈ sortByScore
      (neighborhood cfg st.tabuList st.currentState st.calls) :=
    List.mem_of_mem_getLast? h
  have hmem2 := (sortByScore_perm _).mem_iff.mp hmem
  rcases List.mem_map.mp ((mem_neighborhood_iff hre _ _ _).mp hmem2)
    with ⟨nb, hnb, heq⟩
  rcases Prod.mk.injEq .. ▸ heq with ⟨rfl, rfl⟩
  refine ⟨hnb, rfl, ?_⟩
  intro x hx
  have hx2 : (x, cfg.scoreF x) ∈
      (genNeighbors cfg st.tabuList st.currentState st.calls).map
        fun nb => (nb, cfg.scoreF nb) :=
    List.mem_map_of_mem _ hx
  have hx3 := (mem_neighborhood_iff hre _ _ _).mpr hx2
  have hx4 := (sortByScore_perm _).mem_iff.mpr hx3
  exact le_getLast?_of_pairwise (sortByScore_pairwise _) hx4 h

theorem tabuStep_of_select_none {S : Type} [DecidableEq S] {cfg : TabuCfg S}
    {st : TabuState S} (h : tabuSelect cfg st = none) :
    tabuStep cfg st =
      .ok ({ st with currentSteps := st.currentSteps + 1,
                     calls := st.calls + cfg.nNeighbors },
           some .noSuitableNeighbors) := by
  unfold tabuSelect at h
  simp only [tabuStep]
  rw [h]

theorem tabuStep_of_select_some {S : Type} [DecidableEq S] {cfg : TabuCfg S}
    {st : TabuState S} {ns : S} {nf : ℚ}
    (h : tabuSelect cfg st = some (ns, nf)) {s' : TabuState S}
    {r : Option TabuReason} (hs : tabuStep cfg st = .ok (s', r)) :
    s'.tabuList = tabuPush cfg.tabuSize st.tabuList ns ∧
    s'.currentState = ns ∧ s'.currentScore = nf ∧
    s'.currentSteps = st.currentSteps + 1 ∧
    s'.calls = st.calls + cfg.nNeighbors ∧
    s'.bestScore = (if nf > st.bestScore then nf else st.bestScore) ∧
    s'.bestState = (if nf > st.bestScore then ns else st.bestState) := by
  unfold tabuSelect at h
  simp only [tabuStep] at hs
  rw [h] at hs
  simp only at hs
  by_cases hgt : nf > st.bestScore
  · rw [if_pos hgt] at hs
    cases hnx : cfg.nIndex ns with
    | none => rw [hnx] at hs; simp at hs
    | some ix =>
        rw [hnx] at hs
        simp only at hs
        cases hms : cfg.maxScore with
        | none =>
            rw [hms] at hs
            simp only [Except.ok.injEq, Prod.mk.injEq] at hs
            obtain ⟨rfl, -⟩ := hs
            simp [hgt]
        | some m =>
            rw [hms] at hs
            simp only at hs
            by_cases hge : nf ≥ m
            · rw [if_pos hge] at hs
              simp only [Except.ok.injEq, Prod.mk.injEq] at hs
              obtain ⟨rfl, -⟩ := hs
              simp [hgt]
            · rw [if_neg hge] at hs
              simp only [Except.ok.injEq, Prod.mk.injEq] at hs
              obtain ⟨rfl, -⟩ := hs
              simp [hgt]
  · rw [if_neg hgt] at hs
    cases hms : cfg.maxScore with
    | none =>
        rw [hms] at hs
        simp only [Except.ok.injEq, Prod.mk.injEq] at hs
        obtain ⟨rfl, -⟩ := hs
        simp [hgt]
    | some m =>
        rw [hms] at hs
        simp only at hs
        by_cases hge : st.bestScore ≥ m
        · rw [if_pos hge] at hs
          simp only [Except.ok.injEq, Prod.mk.injEq] at hs
          obtain ⟨rfl, -⟩ := hs
          simp [hgt]
        · rw [if_neg hge] at hs
          simp only [Except.ok.injEq, Prod.mk.injEq] at hs
          obtain ⟨rfl, -⟩ := hs
          simp [hgt]

theorem tabuStep_bestScore_le {S : Type} [DecidableEq S] {cfg : TabuCfg S}
    {st s' : TabuState S} {r : Option TabuReason}
    (hs : tabuStep cfg st = .ok (s', r)) : st.bestScore ≤ s'.bestScore := by
  cases hsel : tabuSelect cfg st with
  | none =>
      rw [tabuStep_of_select_none hsel] at hs
      simp only [Except.ok.injEq, Prod.mk.injEq] at hs
      obtain ⟨rfl, -⟩ := hs
      exact le_refl _
  | some p =>
      obtain ⟨ns, nf⟩ := p
      have hf := tabuStep_of_select_some hsel hs
      rw [hf.2.2.2.2.2.1]
      by_cases hgt : nf > st.bestScore
      · simp [hgt, le_of_lt hgt]
      · simp [hgt]

theorem tabuStep_best_strict {S : Type} [DecidableEq S] {cfg : TabuCfg S}
    {st s' : TabuState S} {r : Option TabuReason}
    (hs : tabuStep cfg st = .ok (s', r))
    (hne : s'.bestScore ≠ st.bestScore ∨ s'.bestState ≠ st.bestState) :
    st.bestScore < s'.bestScore := by
  cases hsel : tabuSelect cfg st with
  | none =>
      rw [tabuStep_of_select_none hsel] at hs
      simp only [Except.ok.injEq, Prod.mk.injEq] at hs
      obtain ⟨rfl, -⟩ := hs
      simp at hne
  | some p =>
      obtain ⟨ns, nf⟩ := p
      have hf := tabuStep_of_select_some hsel hs
      by_cases hgt : nf > st.bestScore
      · rw [hf.2.2.2.2.2.1, if_pos hgt]
        exact hgt
      · rw [hf.2.2.2.2.2.1, if_neg hgt] at hne
        rw [hf.2.2.2.2.2.2, if_neg hgt] at hne
        simp at hne

theorem tabuSteps_succ_cases {S : Type} [DecidableEq S] {cfg : TabuCfg S}
    {k : ℕ} {sk : TabuState S} {rk : Option TabuReason}
    (hk : tabuSteps cfg (k + 1) = .ok (sk, rk)) :
    (∃ s, tabuSteps cfg k = .ok (s, none) ∧ tabuStep cfg s = .ok (sk, rk)) ∨
    tabuSteps cfg k = .ok (sk, some (rk.getD .noSuitableNeighbors)) ∧ rk.isSome := by
  rw [tabuSteps] at hk
  cases hkk : tabuSteps cfg k with
  | error e => rw [hkk] at hk; simp at hk
  | ok p =>
      obtain ⟨s, ro⟩ := p
      rw [hkk] at hk
      cases ro with
      | none =>
          simp only at hk
          exact .inl ⟨s, rfl, hk⟩
      | some r0 =>
          simp only [Except.ok.injEq, Prod.mk.injEq] at hk
          obtain ⟨rfl, rfl⟩ := hk
          exact .inr ⟨rfl, rfl⟩

theorem tabuSteps_bestScore_mono {S : Type} [DecidableEq S] (cfg : TabuCfg S) :
    ∀ {j k : ℕ}, j ≤ k →
      ∀ {sj sk : TabuState S} {rj rk : Option TabuReason},
        tabuSteps cfg j = .ok (sj, rj) → tabuSteps cfg k = .ok (sk, rk) →
        sj.bestScore ≤ sk.bestScore := by
  intro j k hjk
  induction k with
  | zero =>
      intro sj sk rj rk hj hk
      obtain rfl : j = 0 := Nat.le_zero.mp hjk
      rw [hj] at hk
      simp only [Except.ok.injEq, Prod.mk.injEq] at hk
      rw [hk.1]
  | succ k ih =>
      intro sj sk rj rk hj hk
      rcases Nat.lt_or_ge j (k + 1) with hlt | hge
      · have hjk' : j ≤ k := Nat.lt_succ_iff.mp hlt
        rcases tabuSteps_succ_cases hk with ⟨s, hs0, hstep⟩ | ⟨hs0, -⟩
        · exact le_trans (ih hjk' hj hs0) (tabuStep_bestScore_le hstep)
        · exact ih hjk' hj hs0
      · obtain rfl : j = k + 1 := le_antisymm hjk hge
        rw [hj] at hk
        simp only [Except.ok.injEq, Prod.mk.injEq] at hk
        rw [hk.1]

theorem tabuPush_length_le {S : Type} {n : ℕ} (hn : 1 ≤ n) {l : List S}
    (hl : l.length ≤ n) (x : S) : (tabuPush n l x).length ≤ n := by
  unfold tabuPush
  by_cases h : l.length < n
  · simp only [if_pos h, List.length_append, List.length_singleton]
    omega
  · simp only [if_neg h, List.length_append, List.length_singleton,
      List.length_tail]
    omega

theorem tabuSteps_tabu_length {S : Type} [DecidableEq S] {cfg : TabuCfg S}
    (hn : 1 ≤ cfg.tabuSize) :
    ∀ (k : ℕ) {s : TabuState S} {r : Option TabuReason},
      tabuSteps cfg k = .ok (s, r) → s.tabuList.length ≤ cfg.tabuSize := by
  intro k
  induction k with
  | zero =>
      intro s r h
      simp only [tabuSteps, Except.ok.injEq, Prod.mk.injEq] at h
      rw [← h.1]
      simp [tabuInit]
  | succ k ih =>
      intro s r h
      rcases tabuSteps_succ_cases h with ⟨s0, hs0, hstep⟩ | ⟨hs0, -⟩
      · cases hsel : tabuSelect cfg s0 with
        | none =>
            rw [tabuStep_of_select_none hsel] at hstep
            simp only [Except.ok.injEq, Prod.mk.injEq] at hstep
            obtain ⟨rfl, -⟩ := hstep
            simpa using ih hs0
        | some p =>
            obtain ⟨ns, nf⟩ := p
            have hf := tabuStep_of_select_some hsel hstep
            rw [hf.1]
            exact tabuPush_length_le hn (ih hs0) ns
      · exact ih hs0

theorem foldl_tabuPush {S : Type} {n : ℕ} (hn : 1 ≤ n) (xs : List S) :
    List.foldl (tabuPush n) [] xs = xs.drop (xs.length - n) := by
  induction xs using List.reverseRecOn with
  | nil => simp
  | append_singleton xs x ih =>
      rw [List.foldl_append, List.foldl_cons, List.foldl_nil, ih]
      by_cases h : xs.length < n
      · have h0 : xs.length - n = 0 := by omega
        have h1 : (xs ++ [x]).length - n = 0 := by
          simp only [List.length_append, List.length_singleton]; omega
        rw [h0, h1, List.drop_zero, List.drop_zero]
        unfold tabuPush
        rw [if_pos (by simpa using h)]
      · have hlen : (xs.drop (xs.length - n)).length = n := by
          rw [List.length_drop]; omega
        unfold tabuPush
        rw [if_neg (by omega), List.tail_drop]
        have h2 : (xs ++ [x]).length - n = xs.length - n + 1 := by
          simp only [List.length_append, List.length_singleton]; omega
        rw [h2, List.drop_append_of_le_length (by omega)]

theorem foldl_tabuPush_not_mem {S : Type} {n : ℕ} (hn : 1 ≤ n)
    {xs : List S} (hnd : xs.Nodup) {y : S}
    (hy : y ∈ xs.take (xs.length - n)) :
    y ∉ List.foldl (tabuPush n) [] xs := by
  rw [foldl_tabuPush hn xs]
  have hsplit := hnd
  rw [← List.take_append_drop (xs.length - n) xs] at hsplit
  rcases List.nodup_append.mp hsplit with ⟨-, -, hdisj⟩
  exact fun hmem => hdisj hy hmem

theorem adjustTemp_tempAt {S : Type} (cfg : AnnealCfg S) (k : ℕ) :
    adjustTemp cfg.schedule (tempAt cfg k) = tempAt cfg (k + 1) := by
  cases h : cfg.schedule with
  | exponential c =>
      simp only [tempAt, adjustTemp, h, pow_succ]
      ring
  | linear c =>
      simp only [tempAt, adjustTemp, h]
      push_cast
      ring

theorem annealStep_fst {S : Type} (cfg : AnnealCfg S) (st : AnnealState S) :
    (annealStep cfg st).1.curSteps = st.curSteps + 1 ∧
    (annealStep cfg st).1.currentState = annealMove cfg st ∧
    (annealStep cfg st).1.currentEnergy =
      some (cfg.energy (annealMove cfg st)) ∧
    (annealStep cfg st).1.bestEnergy =
      (if cfg.energy (annealMove cfg st) < st.bestEnergy
       then cfg.energy (annealMove cfg st) else st.bestEnergy) ∧
    (annealStep cfg st).1.bestState =
      (if cfg.energy (annealMove cfg st) < st.bestEnergy
       then some (annealMove cfg st) else st.bestState) := by
  simp only [annealStep]
  cases hm : cfg.minEnergy <;> simp only
  · split <;> exact ⟨rfl, rfl, rfl, rfl, rfl⟩
  · split
    · exact ⟨rfl, rfl, rfl, rfl, rfl⟩
    · split <;> exact ⟨rfl, rfl, rfl, rfl, rfl⟩

theorem annealStep_continue {S : Type} {cfg : AnnealCfg S}
    {st s' : AnnealState S} (h : annealStep cfg st = (s', none)) :
    s'.currentTemp = adjustTemp cfg.schedule st.currentTemp ∧
    s'.curSteps = st.curSteps + 1 := by
  simp only [annealStep] at h
  cases hm : cfg.minEnergy <;> rw [hm] at h <;> simp only at h
  · split at h
    · simp at h
    · simp only [Prod.mk.injEq] at h
      obtain ⟨rfl, -⟩ := h
      exact ⟨rfl, rfl⟩
  · split at h
    · simp at h
    · split at h
      · simp at h
      · simp only [Prod.mk.injEq] at h
        obtain ⟨rfl, -⟩ := h
        exact ⟨rfl, rfl⟩

theorem annealStep_floor {S : Type} {cfg : AnnealCfg S}
    {st s' : AnnealState S}
    (h : annealStep cfg st = (s', some .reachedTempFloor)) :
    s'.currentTemp = adjustTemp cfg.schedule st.currentTemp ∧
    s'.curSteps = st.curSteps + 1 := by
  simp only [annealStep] at h
  cases hm : cfg.minEnergy <;> rw [hm] at h <;> simp only at h
  · split at h
    · simp only [Prod.mk.injEq] at h
      obtain ⟨rfl, -⟩ := h
      exact ⟨rfl, rfl⟩
    · simp at h
  · split at h
    · simp at h
    · split at h
      · simp only [Prod.mk.injEq] at h
        obtain ⟨rfl, -⟩ := h
        exact ⟨rfl, rfl⟩
      · simp at h

theorem annealSteps_succ_cases {S : Type} {cfg : AnnealCfg S} {k : ℕ}
    {sk : AnnealState S} {rk : Option AnnealReason}
    (hk : annealSteps cfg (k + 1) = (sk, rk)) :
    (∃ s, annealSteps cfg k = (s, none) ∧ annealStep cfg s = (sk, rk)) ∨
    (annealSteps cfg k = (sk, rk) ∧ rk.isSome) := by
  rw [annealSteps] at hk
  rcases hkk : annealSteps cfg k with ⟨s, ro⟩
  rw [hkk] at hk
  cases ro with
  | none =>
      simp only at hk
      exact .inl ⟨s, rfl, hk⟩
  | some r0 =>
      simp only [Prod.mk.injEq] at hk
      obtain ⟨rfl, rfl⟩ := hk
      exact .inr ⟨rfl, rfl⟩

theorem annealSteps_temp {S : Type} (cfg : AnnealCfg S) :
    ∀ (k : ℕ) {s : AnnealState S}, annealSteps cfg k = (s, none) →
      s.curSteps = k ∧ s.currentTemp = tempAt cfg k := by
  intro k
  induction k with
  | zero =>
      intro s h
      simp only [annealSteps, Prod.mk.injEq] at h
      obtain ⟨rfl, -⟩ := h
      refine ⟨rfl, ?_⟩
      cases hsch : cfg.schedule <;> simp [annealInit, tempAt, hsch]
  | succ k ih =>
      intro s h
      rcases annealSteps_succ_cases h with ⟨s0, hs0, hstep⟩ | ⟨-, habs⟩
      · obtain ⟨hsteps, htemp⟩ := ih hs0
        obtain ⟨htemp', hsteps'⟩ := annealStep_continue hstep
        refine ⟨by rw [hsteps', hsteps], ?_⟩
        rw [htemp', htemp, adjustTemp_tempAt]
      · simp at habs

theorem annealStep_bestEnergy_le {S : Type} (cfg : AnnealCfg S)
    (st : AnnealState S) :
    (annealStep cfg st).1.bestEnergy ≤ st.bestEnergy := by
  rw [(annealStep_fst cfg st).2.2.2.1]
  split
  · exact le_of_lt (by assumption)
  · exact le_refl _

theorem annealSteps_bestEnergy_antitone {S : Type} (cfg : AnnealCfg S) :
    Antitone fun k => (annealSteps cfg k).1.bestEnergy := by
  apply antitone_nat_of_succ_le
  intro k
  rcases hkk : annealSteps cfg k with ⟨s, ro⟩
  rw [annealSteps, hkk]
  cases ro with
  | none => simpa using annealStep_bestEnergy_le cfg s
  | some r0 => simp

theorem annealSteps_running {S : Type} (cfg : AnnealCfg S) :
    ∀ (k : ℕ), (annealSteps cfg k).2 = none →
      (annealSteps cfg k).1.currentState = annealCur cfg k ∧
      (annealSteps cfg k).1.curSteps = k := by
  intro k
  induction k with
  | zero => intro _; exact ⟨rfl, rfl⟩
  | succ k ih =>
      intro h
      rcases hk : annealSteps cfg (k + 1) with ⟨sk, rk⟩
      rw [hk] at h
      obtain rfl : rk = none := h
      rcases annealSteps_succ_cases hk with ⟨s0, hs0, hstep⟩ | ⟨hs0, habs⟩
      · have hrun : (annealSteps cfg k).2 = none := by rw [hs0]
        obtain ⟨hcur, hsteps⟩ := ih hrun
        rw [hs0] at hcur hsteps
        simp only at hcur hsteps
        have hf := annealStep_fst cfg s0
        rw [hstep] at hf
        simp only at hf
        refine ⟨?_, by rw [hf.1, hsteps]⟩
        rw [hf.2.1]
        unfold annealMove
        rw [hcur, hsteps]
        simp [annealCur]
      · simp at habs

theorem annealSteps_best_visited {S : Type} (cfg : AnnealCfg S) :
    ∀ (k : ℕ), (annealSteps cfg k).1.bestState = none ∨
      ∃ i, 1 ≤ i ∧ i ≤ k ∧
        (annealSteps cfg k).1.bestState = some (annealCur cfg i) := by
  intro k
  induction k with
  | zero => exact .inl rfl
  | succ k ih =>
      rcases hk : annealSteps cfg (k + 1) with ⟨sk, rk⟩
      rcases annealSteps_succ_cases hk with ⟨s0, hs0, hstep⟩ | ⟨hs0, -⟩
      · have hrun : (annealSteps cfg k).2 = none := by rw [hs0]
        obtain ⟨hcur, hsteps⟩ := annealSteps_running cfg k hrun
        rw [hs0] at hcur hsteps ih
        simp only at hcur hsteps ih
        have hf := annealStep_fst cfg s0
        rw [hstep] at hf
        simp only at hf
        have hmove : annealMove cfg s0 = annealCur cfg (k + 1) := by
          unfold annealMove
          rw [hcur, hsteps]
          simp [annealCur]
        rw [hf.2.2.2.2, hmove]
        split
        · exact .inr ⟨k + 1, by omega, le_refl _, rfl⟩
        · rcases ih with h | ⟨i, h1, h2, h3⟩
          · exact .inl h
          · exact .inr ⟨i, h1, by omega, h3⟩
      · rw [hs0] at ih
        simp only at ih
        rcases ih with h | ⟨i, h1, h2, h3⟩
        · exact .inl h
        · exact .inr ⟨i, h1, by omega, h3⟩

theorem hillStep_fst {S : Type} (cfg : HillCfg S) (st : HillState S) :
    (hillStep cfg st).1.curSteps = st.curSteps + 1 ∧
    (hillStep cfg st).1.currentState = hillMove cfg st ∧
    (hillStep cfg st).1.bestState =
      (if cfg.objective (hillMove cfg st) > bestOr0 st.bestObjective
       then some (hillMove cfg st) else st.bestState) ∧
    (hillStep cfg st).1.bestObjective =
      (if cfg.objective (hillMove cfg st) > bestOr0 st.bestObjective
       then some (cfg.objective (hillMove cfg st)) else st.bestObjective) := by
  unfold hillStep
  cases hm : cfg.maxObjective
  · exact ⟨rfl, rfl, rfl, rfl⟩
  · dsimp only
    split <;> split <;> exact ⟨rfl, rfl, rfl, rfl⟩

theorem hillSteps_succ_cases {S : Type} {cfg : HillCfg S} {k : ℕ}
    {sk : HillState S} {rk : Option HillReason}
    (hk : hillSteps cfg (k + 1) = (sk, rk)) :
    (∃ s, hillSteps cfg k = (s, none) ∧ hillStep cfg s = (sk, rk)) ∨
    (hillSteps cfg k = (sk, rk) ∧ rk.isSome) := by
  rw [hillSteps] at hk
  rcases hkk : hillSteps cfg k with ⟨s, ro⟩
  rw [hkk] at hk
  cases ro with
  | none =>
      simp only at hk
      exact .inl ⟨s, rfl, hk⟩
  | some r0 =>
      simp only [Prod.mk.injEq] at hk
      obtain ⟨rfl, rfl⟩ := hk
      exact .inr ⟨rfl, rfl⟩

theorem hillStep_bestOr0_le {S : Type} (cfg : HillCfg S) (st : HillState S) :
    bestOr0 st.bestObjective ≤ bestOr0 (hillStep cfg st).1.bestObjective := by
  rw [(hillStep_fst cfg st).2.2.2]
  split
  · exact le_of_lt (by simpa [bestOr0] using (by assumption :
      cfg.objective (hillMove cfg st) > bestOr0 st.bestObjective))
  · exact le_refl _

theorem hillSteps_bestOr0_monotone {S : Type} (cfg : HillCfg S) :
    Monotone fun k => bestOr0 (hillSteps cfg k).1.bestObjective := by
  apply monotone_nat_of_le_succ
  intro k
  rcases hkk : hillSteps cfg k with ⟨s, ro⟩
  rw [hillSteps, hkk]
  cases ro with
  | none => simpa using hillStep_bestOr0_le cfg s
  | some r0 => simp

theorem hillSteps_running {S : Type} (cfg : HillCfg S) :
    ∀ (k : ℕ), (hillSteps cfg k).2 = none →
      (hillSteps cfg k).1.currentState = hillCur cfg k ∧
      (hillSteps cfg k).1.curSteps = k := by
  intro k
  induction k with
  | zero => intro _; exact ⟨rfl, rfl⟩
  | succ k ih =>
      intro h
      rcases hk : hillSteps cfg (k + 1) with ⟨sk, rk⟩
      rw [hk] at h
      obtain rfl : rk = none := h
      rcases hillSteps_succ_cases hk with ⟨s0, hs0, hstep⟩ | ⟨hs0, habs⟩
      · have hrun : (hillSteps cfg k).2 = none := by rw [hs0]
        obtain ⟨hcur, hsteps⟩ := ih hrun
        rw [hs0] at hcur hsteps
        simp only at hcur hsteps
        have hf := hillStep_fst cfg s0
        rw [hstep] at hf
        simp only at hf
        refine ⟨?_, by rw [hf.1, hsteps]⟩
        rw [hf.2.1]
        unfold hillMove
        rw [hcur, hsteps]
        simp [hillCur]
      · simp at habs

theorem hillSteps_best_visited {S : Type} (cfg : HillCfg S) :
    ∀ (k : ℕ), (hillSteps cfg k).1.bestState = none ∨
      ∃ i, 1 ≤ i ∧ i ≤ k ∧
        (hillSteps cfg k).1.bestState = some (hillCur cfg i) := by
  intro k
  induction k with
  | zero => exact .inl rfl
  | succ k ih =>
      rcases hk : hillSteps cfg (k + 1) with ⟨sk, rk⟩
      rcases hillSteps_succ_cases hk with ⟨s0, hs0, hstep⟩ | ⟨hs0, -⟩
      · have hrun : (hillSteps cfg k).2 = none := by rw [hs0]
        obtain ⟨hcur, hsteps⟩ := hillSteps_running cfg k hrun
        rw [hs0] at hcur hsteps ih
        simp only at hcur hsteps ih
        have hf := hillStep_fst cfg s0
        rw [hstep] at hf
        simp only at hf
        have hmove : hillMove cfg s0 = hillCur cfg (k + 1) := by
          unfold hillMove
          rw [hcur, hsteps]
          simp [hillCur]
        rw [hf.2.2.1, hmove]
        split
        · exact .inr ⟨k + 1, by omega, le_refl _, rfl⟩
        · rcases ih with h | ⟨i, h1, h2, h3⟩
          · exact .inl h
          · exact .inr ⟨i, h1, by omega, h3⟩
      · rw [hs0] at ih
        simp only at ih
        rcases ih with h | ⟨i, h1, h2, h3⟩
        · exact .inl h
        · exact .inr ⟨i, h1, by omega, h3⟩

theorem hillSteps_nonpos_best_none {S : Type} {cfg : HillCfg S}
    (hvis : ∀ i, cfg.objective (hillCur cfg i) ≤ 0) :
    ∀ (k : ℕ), (hillSteps cfg k).1.bestState = none ∧
      (hillSteps cfg k).1.bestObjective = none := by
  intro k
  induction k with
  | zero => exact ⟨rfl, rfl⟩
  | succ k ih =>
      rcases hk : hillSteps cfg (k + 1) with ⟨sk, rk⟩
      rcases hillSteps_succ_cases hk with ⟨s0, hs0, hstep⟩ | ⟨hs0, -⟩
      · have hrun : (hillSteps cfg k).2 = none := by rw [hs0]
        obtain ⟨hcur, hsteps⟩ := hillSteps_running cfg k hrun
        rw [hs0] at hcur hsteps ih
        simp only at hcur hsteps ih
        have hf := hillStep_fst cfg s0
        rw [hstep] at hf
        simp only at hf
        have hmove : hillMove cfg s0 = hillCur cfg (k + 1) := by
          unfold hillMove
          rw [hcur, hsteps]
          simp [hillCur]
        have hcond : ¬ (cfg.objective (hillMove cfg s0) >
            bestOr0 s0.bestObjective) := by
          rw [hmove, ih.2]
          simp only [bestOr0, Option.getD_none]
          exact not_lt.mpr (hvis (k + 1))
        constructor
        · rw [hf.2.2.1, if_neg hcond]; exact ih.1
        · rw [hf.2.2.2, if_neg hcond]; exact ih.2
      · rw [hs0] at ih
        simp only at ih
        exact ih

theorem tabuSteps_best_visited {S : Type} [DecidableEq S] (cfg : TabuCfg S) :
    ∀ (k : ℕ) {s : TabuState S} {r : Option TabuReason},
      tabuSteps cfg k = .ok (s, r) →
      s.bestState = cfg.initialState ∨
        ∃ j, j < k ∧ (tabuSelectedAt cfg j).map Prod.fst = some s.bestState := by
  intro k
  induction k with
  | zero =>
      intro s r h
      simp only [tabuSteps, Except.ok.injEq, Prod.mk.injEq] at h
      rw [← h.1]
      exact .inl rfl
  | succ k ih =>
      intro s r h
      rcases tabuSteps_succ_cases h with ⟨s0, hs0, hstep⟩ | ⟨hs0, -⟩
      · cases hsel : tabuSelect cfg s0 with
        | none =>
            rw [tabuStep_of_select_none hsel] at hstep
            simp only [Except.ok.injEq, Prod.mk.injEq] at hstep
            obtain ⟨rfl, -⟩ := hstep
            rcases ih hs0 with hbest | ⟨j, hj, hsel'⟩
            · exact .inl hbest
            · exact .inr ⟨j, by omega, hsel'⟩
        | some p =>
            obtain ⟨ns, nf⟩ := p
            have hf := tabuStep_of_select_some hsel hstep
            by_cases hgt : nf > s0.bestScore
            · refine .inr ⟨k, by omega, ?_⟩
              have : tabuSelectedAt cfg k = some (ns, nf) := by
                unfold tabuSelectedAt
                rw [hs0]
                exact hsel
              rw [this, hf.2.2.2.2.2.2, if_pos hgt]
              rfl
            · rw [hf.2.2.2.2.2.2, if_neg hgt]
              rcases ih hs0 with hbest | ⟨j, hj, hsel'⟩
              · exact .inl hbest
              · exact .inr ⟨j, by omega, hsel'⟩
      · rcases ih hs0 with hbest | ⟨j, hj, hsel'⟩
        · exact .inl hbest
        · exact .inr ⟨j, by omega, hsel'⟩

theorem annealSteps_best_none_iff {S : Type} (cfg : AnnealCfg S) :
    ∀ (k : ℕ), (annealSteps cfg k).1.bestState = none ↔
      ∀ j, j < k → ¬ annealImproved cfg j := by
  intro k
  induction k with
  | zero => simp [annealSteps, annealInit]
  | succ k ih =>
      rcases hk : annealSteps cfg (k + 1) with ⟨sk, rk⟩
      rcases annealSteps_succ_cases hk with ⟨s0, hs0, hstep⟩ | ⟨hs0, hsome⟩
      · have himp : annealImproved cfg k ↔
            cfg.energy (annealMove cfg s0) < s0.bestEnergy := by
          unfold annealImproved
          rw [hs0]
        have hf := annealStep_fst cfg s0
        rw [hstep] at hf
        simp only at hf
        rw [hs0] at ih
        simp only at ih
        by_cases hC : cfg.energy (annealMove cfg s0) < s0.bestEnergy
        · constructor
          · intro hnone
            rw [hf.2.2.2.2, if_pos hC] at hnone
            simp at hnone
          · intro hall
            exact absurd (himp.mpr hC) (hall k (by omega))
        · rw [hf.2.2.2.2, if_neg hC]
          constructor
          · intro hnone j hj
            rcases Nat.lt_succ_iff_lt_or_eq.mp hj with h | rfl
            · exact ih.mp hnone j h
            · exact fun h => hC (himp.mp h)
          · intro hall
            exact ih.mpr fun j hj => hall j (by omega)
      · rw [hs0] at ih
        simp only at ih
        cases rk with
        | none => simp at hsome
        | some r0 =>
            have himp : ¬ annealImproved cfg k := by
              unfold annealImproved
              rw [hs0]
              simp
            constructor
            · intro hnone j hj
              rcases Nat.lt_succ_iff_lt_or_eq.mp hj with h | rfl
              · exact ih.mp hnone j h
              · exact himp
            · intro hall
              exact ih.mpr fun j hj => hall j (by omega)

theorem hillSteps_best_none_iff {S : Type} (cfg : HillCfg S) :
    ∀ (k : ℕ), (hillSteps cfg k).1.bestState = none ↔
      ∀ j, j < k → ¬ hillImproved cfg j := by
  intro k
  induction k with
  | zero => simp [hillSteps, hillInit]
  | succ k ih =>
      rcases hk : hillSteps cfg (k + 1) with ⟨sk, rk⟩
      rcases hillSteps_succ_cases hk with ⟨s0, hs0, hstep⟩ | ⟨hs0, hsome⟩
      · have himp : hillImproved cfg k ↔
            cfg.objective (hillMove cfg s0) > bestOr0 s0.bestObjective := by
          unfold hillImproved
          rw [hs0]
        have hf := hillStep_fst cfg s0
        rw [hstep] at hf
        simp only at hf
        rw [hs0] at ih
        simp only at ih
        by_cases hC : cfg.objective (hillMove cfg s0) > bestOr0 s0.bestObjective
        · constructor
          · intro hnone
            rw [hf.2.2.1, if_pos hC] at hnone
            simp at hnone
          · intro hall
            exact absurd (himp.mpr hC) (hall k (by omega))
        · rw [hf.2.2.1, if_neg hC]
          constructor
          · intro hnone j hj
            rcases Nat.lt_succ_iff_lt_or_eq.mp hj with h | rfl
            · exact ih.mp hnone j h
            · exact fun h => hC (himp.mp h)
          · intro hall
            exact ih.mpr fun j hj => hall j (by omega)
      · rw [hs0] at ih
        simp only at ih
        cases rk with
        | none => simp at hsome
        | some r0 =>
            have himp : ¬ hillImproved cfg k := by
              unfold hillImproved
              rw [hs0]
              simp
            constructor
            · intro hnone j hj
              rcases Nat.lt_succ_iff_lt_or_eq.mp hj with h | rfl
              · exact ih.mp hnone j h
              · exact himp
            · intro hall
              exact ih.mpr fun j hj => hall j (by omega)

theorem tabuRun_state {S : Type} [DecidableEq S] {cfg : TabuCfg S} {n : ℕ}
    {s : TabuState S} {r : TabuReason} (h : tabuRun cfg n = .ok (s, r)) :
    ∃ ro, tabuSteps cfg n = .ok (s, ro) := by
  unfold tabuRun at h
  cases hk : tabuSteps cfg n with
  | error e => rw [hk] at h; simp at h
  | ok p =>
      obtain ⟨s0, ro⟩ := p
      rw [hk] at h
      cases ro with
      | none =>
          simp only [Except.ok.injEq, Prod.mk.injEq] at h
          exact ⟨none, by rw [h.1]⟩
      | some r0 =>
          simp only [Except.ok.injEq, Prod.mk.injEq] at h
          exact ⟨some r0, by rw [h.1]⟩

theorem annealRun_fst {S : Type} (cfg : AnnealCfg S) :
    (annealRun cfg).1 = (annealSteps cfg cfg.maxSteps).1 := by
  unfold annealRun
  rcases hs : annealSteps cfg cfg.maxSteps with ⟨s, ro⟩
  cases ro <;> rfl

theorem hillRun_fst {S : Type} (cfg : HillCfg S) :
    (hillRun cfg).1 = (hillSteps cfg cfg.maxSteps).1 := by
  unfold hillRun
  rcases hs : hillSteps cfg cfg.maxSteps with ⟨s, ro⟩
  cases ro <;> rfl

/-! ## The claims -/

/-- C1: in every tabu-search round, the engine generates `n_neighbors`
candidates by repeated `_neighbor` calls, drops every candidate already
present in the tabu list before scoring, terminates with reason
`NoSuitableNeighbors` when the remaining set is empty, and otherwise
selects a remaining candidate of maximal score, appends it to the tabu
list, and makes it the current state and score. -/
theorem c1_tabu_round {S : Type} [DecidableEq S] (cfg : TabuCfg S)
    (st : TabuState S) (hre : ReorderOK cfg) :
    (genNeighbors cfg st.tabuList st.currentState st.calls =
      ((List.range cfg.nNeighbors).map fun j =>
          cfg.nbr (st.calls + j) st.currentState).filter
        fun nb => decide (nb ∉ st.tabuList)) ∧
    (genNeighbors cfg st.tabuList st.currentState st.calls = [] →
      tabuStep cfg st =
        .ok ({ st with currentSteps := st.currentSteps + 1,
                       calls := st.calls + cfg.nNeighbors },
             some .noSuitableNeighbors)) ∧
    (genNeighbors cfg st.tabuList st.currentState st.calls ≠ [] →
      ∃ ns nf, tabuSelect cfg st = some (ns, nf) ∧
        ns ∈ genNeighbors cfg st.tabuList st.currentState st.calls ∧
        nf = cfg.scoreF ns ∧
        (∀ x ∈ genNeighbors cfg st.tabuList st.currentState st.calls,
          cfg.scoreF x ≤ nf) ∧
        ∀ s' r, tabuStep cfg st = .ok (s', r) →
          s'.tabuList = tabuPush cfg.tabuSize st.tabuList ns ∧
          s'.currentState = ns ∧ s'.currentScore = nf) := by
  refine ⟨genNeighbors_eq_filter cfg _ _ _, ?_, ?_⟩
  · intro hnil
    exact tabuStep_of_select_none ((tabuSelect_eq_none_iff hre st).mpr hnil)
  · intro hne
    cases hsel : tabuSelect cfg st with
    | none => exact absurd ((tabuSelect_eq_none_iff hre st).mp hsel) hne
    | some p =>
        obtain ⟨ns, nf⟩ := p
        obtain ⟨hmem, hf, hmax⟩ := tabuSelect_spec hre hsel
        refine ⟨ns, nf, rfl, hmem, hf, hmax, ?_⟩
        intro s' r hs
        exact ⟨(tabuStep_of_select_some hsel hs).1,
               (tabuStep_of_select_some hsel hs).2.1,
               (tabuStep_of_select_some hsel hs).2.2.1⟩

theorem c1_tabu_round_witness :
    ReorderOK c1cfg ∧ (tabuSelect c1cfg (tabuInit c1cfg)).isSome = true := by
  have hre : ReorderOK c1cfg := fun l => List.Perm.refl l
  refine ⟨hre, ?_⟩
  have hne : genNeighbors c1cfg (tabuInit c1cfg).tabuList
      (tabuInit c1cfg).currentState (tabuInit c1cfg).calls ≠ [] := by
    decide
  obtain ⟨ns, nf, hsel, -⟩ := (c1_tabu_round c1cfg (tabuInit c1cfg) hre).2.2 hne
  rw [hsel]
  rfl

/-- C2: the update-best step of `TabuSearch.run` reads the attribute
`n_index` of the selected neighbor state (line 142), so for a state type
supporting only equality and cloning the run raises `AttributeError` at
the first strict score improvement instead of completing. -/
theorem c2_n_index_attribute_error :
    tabuRun c2cfg 5 = .error .attributeError := by
  norm_num [tabuRun, tabuSteps, tabuStep, tabuInit, neighborhood,
    genNeighbors, sortByScore, insertScored, tabuPush, c2cfg,
    List.range_succ]

/-- C3 counterexample: on a round whose whole batch is the tabu state `7`
(score `5`, above the best-known score `0`), the engine terminates with
`NoSuitableNeighbors` under both values of the `parallel` flag — the only
behavioural configuration `run` offers — whereas the spec's Policy B
(score-then-backtrack with aspiration) selects that candidate.  No
configuration of the engine exhibits Policy B. -/
theorem c3_counterexample :
    tabuStep c3cfg c3st =
      .ok ({ c3st with currentSteps := 2, calls := 2 },
           some .noSuitableNeighbors) ∧
    tabuStep { c3cfg with parallel := true } c3st =
      .ok ({ c3st with currentSteps := 2, calls := 2 },
           some .noSuitableNeighbors) ∧
    policyBSelect c3st.tabuList c3st.bestScore
      (((List.range c3cfg.nNeighbors).map fun j =>
          c3cfg.nbr (c3st.calls + j) c3st.currentState).map
        fun nb => (nb, c3cfg.scoreF nb)) = some (7, 5) := by
  refine ⟨?_, ?_, ?_⟩
  · norm_num [tabuStep, neighborhood, genNeighbors, sortByScore,
      insertScored, c3cfg, c3st, List.range_succ]
  · norm_num [tabuStep, neighborhood, genNeighbors, sortByScore,
      insertScored, c3cfg, c3st, List.range_succ]
  · norm_num [policyBSelect, policyBGo, sortByScore, insertScored,
      c3cfg, c3st, List.range_succ]

/-- C3 amended: the tabu-search engine implements only Policy A
(filter-then-score): in every configuration the tabu filter runs before
scoring, a tabu state can never be selected (no aspiration rule), the
round terminates with `NoSuitableNeighbors` exactly when the filtered
candidate set is empty, and the remaining configuration parameters
(`max_score`, `verbose`) do not influence the selection.  Policy B is
not available. -/
theorem c3_amended {S : Type} [DecidableEq S] (cfg : TabuCfg S)
    (st : TabuState S) (hre : ReorderOK cfg) :
    (tabuSelect cfg st = none ↔
      genNeighbors cfg st.tabuList st.currentState st.calls = []) ∧
    (∀ ns nf, tabuSelect cfg st = some (ns, nf) → ns ∉ st.tabuList) ∧
    (∀ m v, tabuSelect { cfg with maxScore := m, verbose := v } st =
      tabuSelect cfg st) := by
  refine ⟨tabuSelect_eq_none_iff hre st, ?_, ?_⟩
  · intro ns nf hsel
    exact not_tabu_of_mem_genNeighbors (tabuSelect_spec hre hsel).1
  · intro m v
    rfl

theorem c3_amended_witness :
    ReorderOK c3cfg ∧ tabuSelect c3cfg c3st = none := by
  have hre : ReorderOK c3cfg := fun l => List.Perm.refl l
  refine ⟨hre, ?_⟩
  refine (c3_amended c3cfg c3st hre).1.mpr ?_
  norm_num [genNeighbors, c3cfg, c3st, List.range_succ]

/-- C4 counterexample: the annealing run `c4cfg` terminates at the
temperature floor with `best_state = None`: `run` does not always return
a previously produced clone, it can return `None` when no strict
improvement was ever recorded. -/
theorem c4_counterexample :
    annealRun c4cfg =
      ({ curSteps := 1, currentState := (), currentTemp := 0,
         currentEnergy := some 0, bestState := none, bestEnergy := 0 },
       .reachedTempFloor) ∧
    (annealRun c4cfg).1.bestState = none := by
  have h : annealRun c4cfg =
      ({ curSteps := 1, currentState := (), currentTemp := 0,
         currentEnergy := some 0, bestState := none, bestEnergy := 0 },
       .reachedTempFloor) := by
    norm_num [annealRun, annealSteps, annealStep, annealInit, annealMove,
      adjustTemp, tempFloor, c4cfg]
  exact ⟨h, by rw [h]⟩

/-- C4 amended: tabu search returns a `best_state` that is the initial
state or a state selected (and deep-copied) at some earlier round;
simulated annealing and stochastic hill climbing return `best_state` as
a clone of a previously visited state when a strict improvement occurred
during the run (`best_state` is `None` exactly when no step recorded a
strict improvement, and when it is not `None` it is a visited state). -/
theorem c4_amended :
    (∀ (S : Type) [DecidableEq S] (cfg : TabuCfg S) (n : ℕ)
        (s : TabuState S) (r : TabuReason), tabuRun cfg n = .ok (s, r) →
        s.bestState = cfg.initialState ∨
          ∃ j, j < n ∧ (tabuSelectedAt cfg j).map Prod.fst = some s.bestState) ∧
    (∀ (S : Type) (cfg : AnnealCfg S),
        (annealRun cfg).1.bestState = none ∨
          ∃ i, 1 ≤ i ∧ i ≤ cfg.maxSteps ∧
            (annealRun cfg).1.bestState = some (annealCur cfg i)) ∧
    (∀ (S : Type) (cfg : HillCfg S),
        (hillRun cfg).1.bestState = none ∨
          ∃ i, 1 ≤ i ∧ i ≤ cfg.maxSteps ∧
            (hillRun cfg).1.bestState = some (hillCur cfg i)) ∧
    (∀ (S : Type) (cfg : AnnealCfg S),
        (annealRun cfg).1.bestState = none ↔
          ∀ j, j < cfg.maxSteps → ¬ annealImproved cfg j) ∧
    (∀ (S : Type) (cfg : HillCfg S),
        (hillRun cfg).1.bestState = none ↔
          ∀ j, j < cfg.maxSteps → ¬ hillImproved cfg j) := by
  refine ⟨?_, ?_, ?_, ?_, ?_⟩
  · intro S _ cfg n s r h
    obtain ⟨ro, hs⟩ := tabuRun_state h
    exact tabuSteps_best_visited cfg n hs
  · intro S cfg
    rw [annealRun_fst]
    exact annealSteps_best_visited cfg cfg.maxSteps
  · intro S cfg
    rw [hillRun_fst]
    exact hillSteps_best_visited cfg cfg.maxSteps
  · intro S cfg
    rw [annealRun_fst]
    exact annealSteps_best_none_iff cfg cfg.maxSteps
  · intro S cfg
    rw [hillRun_fst]
    exact hillSteps_best_none_iff cfg cfg.maxSteps

theorem c4_amended_witness :
    tabuRun c4tcfg 1 = .ok (c4trec, .reachedMaxSteps) ∧
    c4trec.bestState = c4tcfg.initialState ∧
    (annealRun c4cfg).1.bestState = none ∧
    ¬ annealImproved c4cfg 0 := by
  have hrun : tabuRun c4tcfg 1 = .ok (c4trec, .reachedMaxSteps) := by
    norm_num [tabuRun, tabuSteps, tabuStep, tabuInit, neighborhood,
      genNeighbors, sortByScore, insertScored, tabuPush, c4tcfg, c4trec,
      List.range_succ]
  have hnone : (annealRun c4cfg).1.bestState = none := by
    norm_num [annealRun, annealSteps, annealStep, annealInit, annealMove,
      adjustTemp, tempFloor, c4cfg]
  refine ⟨hrun, ?_, hnone, ?_⟩
  · rcases c4_amended.1 ℕ c4tcfg 1 c4trec .reachedMaxSteps hrun
      with h | ⟨j, hj, hsel⟩
    · exact h
    · exfalso
      obtain rfl : j = 0 := by omega
      have hsel0 : tabuSelectedAt c4tcfg 0 = some (1, -1) := by
        norm_num [tabuSelectedAt, tabuSteps, tabuSelect, tabuInit,
          neighborhood, genNeighbors, sortByScore, insertScored, c4tcfg,
          List.range_succ]
      rw [hsel0] at hsel
      simp [c4trec] at hsel
  · exact (c4_amended.2.2.2.1 Unit c4cfg).mp hnone 0 (by norm_num [c4cfg])

/-- C5 counterexample: two annealing runs that terminate through
different paths (temperature floor vs step budget) return the very same
value from `run`, so the termination path is not distinguishable by any
symbolic reason available for programmatic inspection; only the printed
human-readable notices differ. -/
theorem c5_counterexample :
    (annealRun c5cfgA).2 = .reachedTempFloor ∧
    (annealRun c5cfgB).2 = .reachedMaxSteps ∧
    annealPyReturn (annealRun c5cfgA).1 = annealPyReturn (annealRun c5cfgB).1 ∧
    annealNotice (annealRun c5cfgA).2 ≠ annealNotice (annealRun c5cfgB).2 := by
  have hA : annealRun c5cfgA =
      ({ curSteps := 1, currentState := (), currentTemp := 0,
         currentEnergy := some 0, bestState := none, bestEnergy := 0 },
       .reachedTempFloor) := by
    norm_num [annealRun, annealSteps, annealStep, annealInit, annealMove,
      adjustTemp, tempFloor, c5cfgA]
  have hB : annealRun c5cfgB =
      ({ curSteps := 5, currentState := (), currentTemp := 1,
         currentEnergy := some 0, bestState := none, bestEnergy := 0 },
       .reachedMaxSteps) := by
    norm_num [annealRun, annealSteps, annealStep, annealInit, annealMove,
      adjustTemp, tempFloor, c5cfgB]
  rw [hA, hB]
  refine ⟨rfl, rfl, rfl, ?_⟩
  simp only [annealNotice]
  decide

/-- C5 amended: each termination path prints a distinct human-readable
notice (the notice map of every engine is injective on its reasons), but
`run` returns only the pair `(best_state, best_score_or_energy)`: no
symbolic reason is exposed for programmatic inspection beyond the
notice. -/
theorem c5_amended :
    (∀ r r' : TabuReason, tabuNotice r = tabuNotice r' → r = r') ∧
    (∀ r r' : AnnealReason, annealNotice r = annealNotice r' → r = r') ∧
    (∀ r r' : HillReason, hillNotice r = hillNotice r' → r = r') := by
  refine ⟨?_, ?_, ?_⟩ <;>
    intro r r' h <;> cases r <;> cases r' <;>
      first
        | rfl
        | exact absurd h (by decide)

theorem c5_amended_witness :
    AnnealReason.reachedMaxSteps = AnnealReason.reachedMaxSteps ∧
    tabuNotice .noSuitableNeighbors ≠ tabuNotice .reachedMaxScore :=
  ⟨c5_amended.2.1 _ _ rfl, mt (c5_amended.1 _ _) (by decide)⟩

/-- C6 counterexample: with `tabu_size = 1`, the run `c6cfg` makes three
insertions (the states `0`, `1`, `0`); afterwards the earliest-inserted
state `0` is again a member of the tabu list, so "after more than
`tabu_size` insertions the earliest-inserted states are no longer
members" fails when insertions may repeat equal states. -/
theorem c6_counterexample :
    (tabuSelectedAt c6cfg 0).map Prod.fst = some 0 ∧
    (tabuSelectedAt c6cfg 1).map Prod.fst = some 1 ∧
    (tabuSelectedAt c6cfg 2).map Prod.fst = some 0 ∧
    tabuRun c6cfg 3 = .ok (c6rec, .reachedMaxSteps) ∧
    c6cfg.tabuSize = 1 ∧ (0 : ℕ) ∈ c6rec.tabuList := by
  refine ⟨?_, ?_, ?_, ?_, rfl, by simp [c6rec]⟩ <;>
    norm_num [tabuRun, tabuSteps, tabuStep, tabuSelectedAt, tabuSelect,
      tabuInit, neighborhood, genNeighbors, sortByScore, insertScored,
      tabuPush, c6cfg, c6rec, List.range_succ]

/-- C6 amended: at every observation point of every run,
`len(tabu_list) ≤ tabu_size`; insertion at capacity evicts the oldest
entry (FIFO), so after more than `tabu_size` insertions of pairwise
distinct states the earliest-inserted states are no longer members
(membership being list membership by equality). -/
theorem c6_amended :
    (∀ (S : Type) [DecidableEq S] (cfg : TabuCfg S), 1 ≤ cfg.tabuSize →
        ∀ (k : ℕ) (s : TabuState S) (r : Option TabuReason),
          tabuSteps cfg k = .ok (s, r) → s.tabuList.length ≤ cfg.tabuSize) ∧
    (∀ (S : Type) (n : ℕ), 1 ≤ n → ∀ xs : List S,
        List.foldl (tabuPush n) [] xs = xs.drop (xs.length - n) ∧
        (xs.Nodup → ∀ y ∈ xs.take (xs.length - n),
          y ∉ List.foldl (tabuPush n) [] xs)) := by
  refine ⟨?_, ?_⟩
  · intro S _ cfg hn k s r h
    exact tabuSteps_tabu_length hn k h
  · intro S n hn xs
    exact ⟨foldl_tabuPush hn xs,
           fun hnd y hy => foldl_tabuPush_not_mem hn hnd hy⟩

theorem c6_amended_witness :
    (1 : ℕ) ≤ 2 ∧
    List.foldl (tabuPush 2) [] [10, 20, 30] = [20, 30] ∧
    (10 : ℕ) ∉ List.foldl (tabuPush 2) ([] : List ℕ) [10, 20, 30] := by
  refine ⟨by decide, ?_, ?_⟩
  · have h := (c6_amended.2 ℕ 2 (by decide) [10, 20, 30]).1
    simpa using h
  · exact (c6_amended.2 ℕ 2 (by decide) [10, 20, 30]).2 (by decide)
      10 (by decide)

/-- C7: across the steps of a single run, `best_energy` in simulated
annealing is non-increasing, `best_objective` in stochastic hill
climbing and `best_score` in tabu search are non-decreasing, and each
best tracker changes only on a strict improvement. -/
theorem c7_best_value_monotone :
    (∀ (S : Type) (cfg : AnnealCfg S) (j k : ℕ), j ≤ k →
        (annealSteps cfg k).1.bestEnergy ≤ (annealSteps cfg j).1.bestEnergy) ∧
    (∀ (S : Type) (cfg : AnnealCfg S) (st : AnnealState S),
        (annealStep cfg st).1.bestEnergy ≠ st.bestEnergy →
        (annealStep cfg st).1.bestEnergy < st.bestEnergy) ∧
    (∀ (S : Type) (cfg : HillCfg S) (j k : ℕ), j ≤ k →
        bestOr0 (hillSteps cfg j).1.bestObjective ≤
          bestOr0 (hillSteps cfg k).1.bestObjective) ∧
    (∀ (S : Type) (cfg : HillCfg S) (st : HillState S),
        (hillStep cfg st).1.bestObjective ≠ st.bestObjective →
        bestOr0 st.bestObjective < bestOr0 (hillStep cfg st).1.bestObjective) ∧
    (∀ (S : Type) [DecidableEq S] (cfg : TabuCfg S) (j k : ℕ), j ≤ k →
        ∀ (sj sk : TabuState S) (rj rk : Option TabuReason),
          tabuSteps cfg j = .ok (sj, rj) → tabuSteps cfg k = .ok (sk, rk) →
          sj.bestScore ≤ sk.bestScore) ∧
    (∀ (S : Type) [DecidableEq S] (cfg : TabuCfg S) (st s' : TabuState S)
        (r : Option TabuReason), tabuStep cfg st = .ok (s', r) →
        s'.bestScore ≠ st.bestScore → st.bestScore < s'.bestScore) := by
  refine ⟨?_, ?_, ?_, ?_, ?_, ?_⟩
  · intro S cfg j k hjk
    exact annealSteps_bestEnergy_antitone cfg hjk
  · intro S cfg st hne
    rw [(annealStep_fst cfg st).2.2.2.1] at hne ⊢
    by_cases h : cfg.energy (annealMove cfg st) < st.bestEnergy
    · rw [if_pos h]
      exact h
    · rw [if_neg h] at hne
      exact absurd rfl hne
  · intro S cfg j k hjk
    exact hillSteps_bestOr0_monotone cfg hjk
  · intro S cfg st hne
    rw [(hillStep_fst cfg st).2.2.2] at hne
    by_cases h : cfg.objective (hillMove cfg st) > bestOr0 st.bestObjective
    · rw [(hillStep_fst cfg st).2.2.2, if_pos h]
      simpa [bestOr0] using h
    · rw [if_neg h] at hne
      exact absurd rfl hne
  · intro S _ cfg j k hjk sj sk rj rk hj hk
    exact tabuSteps_bestScore_mono cfg hjk hj hk
  · intro S _ cfg st s' r hs hne
    exact tabuStep_best_strict hs (.inl hne)

theorem c7_witness :
    (0 : ℕ) ≤ 1 ∧
    (annealSteps c7acfg 1).1.bestEnergy ≤ (annealSteps c7acfg 0).1.bestEnergy ∧
    tabuSteps c7tcfg 0 = .ok (tabuInit c7tcfg, none) ∧
    tabuSteps c7tcfg 1 = .ok (c7trec, none) ∧
    (tabuInit c7tcfg).bestScore ≤ c7trec.bestScore := by
  have h0 : tabuSteps c7tcfg 0 = .ok (tabuInit c7tcfg, none) := rfl
  have h1 : tabuSteps c7tcfg 1 = .ok (c7trec, none) := by
    norm_num [tabuSteps, tabuStep, tabuInit, neighborhood, genNeighbors,
      sortByScore, insertScored, tabuPush, c7tcfg, c7trec, List.range_succ]
  exact ⟨by decide, c7_best_value_monotone.1 Unit c7acfg 0 1 (by decide),
    h0, h1,
    c7_best_value_monotone.2.2.2.2.1 ℕ c7tcfg 0 1 (by decide)
      (tabuInit c7tcfg) c7trec none none h0 h1⟩

/-- C8: in simulated annealing, after `k` fully completed steps (each
completed step applies the schedule exactly once, including the step
that terminates at the temperature floor), `cur_steps = k` and
`current_temp` equals `start_temp * c ^ k` under the exponential
schedule and `start_temp - k * c` under the linear one, for every
acceptance-outcome stream (the configuration quantifies over all of
them, so the value is independent of which neighbors were accepted). -/
theorem c8_temperature_schedule {S : Type} (cfg : AnnealCfg S) (k : ℕ) :
    (∀ {s : AnnealState S}, annealSteps cfg k = (s, none) →
      s.curSteps = k ∧
      s.currentTemp =
        match cfg.schedule with
        | .exponential c => cfg.startTemp * c ^ k
        | .linear c => cfg.startTemp - k * c) ∧
    (∀ {s s' : AnnealState S}, annealSteps cfg k = (s, none) →
      annealStep cfg s = (s', some .reachedTempFloor) →
      s'.curSteps = k + 1 ∧
      s'.currentTemp =
        match cfg.schedule with
        | .exponential c => cfg.startTemp * c ^ (k + 1)
        | .linear c => cfg.startTemp - (k + 1) * c) := by
  constructor
  · intro s h
    obtain ⟨h1, h2⟩ := annealSteps_temp cfg k h
    exact ⟨h1, by rw [h2]; rfl⟩
  · intro s s' h hstep
    obtain ⟨h1, h2⟩ := annealSteps_temp cfg k h
    obtain ⟨ht, hc⟩ := annealStep_floor hstep
    refine ⟨by rw [hc, h1], ?_⟩
    rw [ht, h2, adjustTemp_tempAt]
    cases hsch : cfg.schedule
    · simp only [tempAt, hsch]
    · simp only [tempAt, hsch]
      push_cast
      ring

theorem c8_witness :
    annealSteps c8cfg 2 =
      ({ curSteps := 2, currentState := (), currentTemp := 1 / 4,
         currentEnergy := some 0, bestState := none, bestEnergy := 0 },
       none) ∧
    ((1 : ℚ) / 4 = c8cfg.startTemp * (1 / 2) ^ 2) := by
  have h : annealSteps c8cfg 2 =
      ({ curSteps := 2, currentState := (), currentTemp := 1 / 4,
         currentEnergy := some 0, bestState := none, bestEnergy := 0 },
       none) := by
    norm_num [annealSteps, annealStep, annealInit, annealMove, adjustTemp,
      tempFloor, c8cfg]
  refine ⟨h, ?_⟩
  have h2 := ((c8_temperature_schedule c8cfg 2).1 h).2
  simpa [c8cfg] using h2

/-- C9: `_accept_neighbor` computes
`p = exp(-(energy(neighbor) - energy(current)) / current_temp)`; an
`OverflowError` from `exp` means accept; the move is accepted
deterministically when `p ≥ 1` and otherwise accepted exactly when the
uniform draw `r` satisfies `r ≤ p` (hence with probability `p`). -/
theorem c9_acceptance_rule (expf : ℚ → Except Unit ℚ) (eNbr eCur T r : ℚ) :
    acceptExponent eNbr eCur T = -(eNbr - eCur) / T ∧
    (expf (acceptExponent eNbr eCur T) = .error () →
      saAccept expf eNbr eCur T r = true) ∧
    (∀ p, expf (acceptExponent eNbr eCur T) = .ok p → 1 ≤ p →
      saAccept expf eNbr eCur T r = true) ∧
    (∀ p, expf (acceptExponent eNbr eCur T) = .ok p → p < 1 →
      (saAccept expf eNbr eCur T r = true ↔ r ≤ p)) := by
  refine ⟨rfl, ?_, ?_, ?_⟩
  · intro h
    unfold saAccept
    rw [h]
  · intro p h hp
    unfold saAccept
    rw [h]
    simp [ge_iff_le, hp]
  · intro p h hp
    unfold saAccept
    rw [h]
    simp [ge_iff_le, not_le.mpr hp]

theorem c9_witness :
    c9expf (acceptExponent 3 1 2) = .ok (1 / 2) ∧
    (1 : ℚ) / 2 < 1 ∧
    (saAccept c9expf 3 1 2 (3 / 4) = true ↔ (3 : ℚ) / 4 ≤ 1 / 2) :=
  ⟨rfl, by norm_num,
   (c9_acceptance_rule c9expf 3 1 2 (3 / 4)).2.2.2 (1 / 2) rfl (by norm_num)⟩

/-- C10: the hill-climbing best tracker is updated exactly when the
objective of the (possibly moved-to) current state strictly exceeds
`best_objective or 0` (the unset best is the explicit floor `0`);
consequently a run all of whose visited states have non-positive
objective never sets `best_state`. -/
theorem c10_hill_best_floor :
    (∀ (S : Type) (cfg : HillCfg S) (st : HillState S),
        ((hillStep cfg st).1.bestObjective ≠ st.bestObjective ↔
          cfg.objective (hillMove cfg st) > bestOr0 st.bestObjective) ∧
        (cfg.objective (hillMove cfg st) > bestOr0 st.bestObjective →
          (hillStep cfg st).1.bestObjective =
            some (cfg.objective (hillMove cfg st)) ∧
          (hillStep cfg st).1.bestState = some (hillMove cfg st))) ∧
    (∀ (S : Type) (cfg : HillCfg S),
        (∀ i, cfg.objective (hillCur cfg i) ≤ 0) →
        (∀ k, (hillSteps cfg k).1.bestState = none ∧
          (hillSteps cfg k).1.bestObjective = none) ∧
        (hillRun cfg).1.bestState = none) := by
  refine ⟨?_, ?_⟩
  · intro S cfg st
    constructor
    · constructor
      · intro hne
        by_contra h
        rw [(hillStep_fst cfg st).2.2.2, if_neg h] at hne
        exact hne rfl
      · intro h
        rw [(hillStep_fst cfg st).2.2.2, if_pos h]
        cases hbo : st.bestObjective with
        | none => simp
        | some v =>
            rw [hbo] at h
            have hv : v < cfg.objective (hillMove cfg st) := by
              simpa [bestOr0] using h
            simp only [ne_eq, Option.some.injEq]
            exact fun heq => absurd heq (ne_of_gt hv)
    · intro h
      exact ⟨by rw [(hillStep_fst cfg st).2.2.2, if_pos h],
             by rw [(hillStep_fst cfg st).2.2.1, if_pos h]⟩
  · intro S cfg hvis
    refine ⟨hillSteps_nonpos_best_none hvis, ?_⟩
    rw [hillRun_fst]
    exact (hillSteps_nonpos_best_none hvis cfg.maxSteps).1

theorem c10_witness :
    ((-1 : ℚ) ≤ 0) ∧ (hillSteps c10cfg 3).1.bestState = none ∧
    (hillRun c10cfg).1.bestState = none := by
  have hvis : ∀ i, c10cfg.objective (hillCur c10cfg i) ≤ 0 := fun i => by
    norm_num [c10cfg]
  obtain ⟨hall, hrun⟩ := c10_hill_best_floor.2 Unit c10cfg hvis
  exact ⟨by norm_num, (hall 3).1, hrun⟩

end Solid
